import Mathlib

/-!
GoChatWeb: the connection hub (`ClientManager`) and the client pumps

A shallow embedding of `src/clientManager.go`, `src/client.go` and
`src/message.go`.

* A `*Client` pointer is a natural number (`Ptr`); the heap maps each pointer
  to the `Client` record stored there.
* `chan []byte` is modelled by `Chan`: the payloads the channel has accepted so
  far (oldest first), whether it has been closed, and whether a send would
  complete right now.  The channels of this program are unbuffered
  (`make(chan []byte)`), so a send completes immediately exactly when the
  receiving goroutine is waiting at its receive.
* The payload travelling through the channels is the `Message` record that
  `json.Marshal` encodes; the byte encoding itself is not modelled.
* `map[*Client]bool` is a duplicate-free list of keys; the order of the list is
  the order in which `range` visits the keys.
* Go run-time panics (close of a closed channel, send on a closed channel) and
  a goroutine waiting in a blocking send are explicit outcomes.
-/

namespace GoChatWeb

/-- Address of a `Client` value (`*Client`). -/
abbrev Ptr := Nat

/-- Wire message, `type Message struct` of `message.go`. -/
structure Message where
  Sender : String
  Recipient : String
  Content : String
deriving DecidableEq, Repr

/-- What a `chan []byte` carries: the message that was marshalled. -/
abbrev Payload := Message

/-- The state of one `chan []byte`. -/
structure Chan where
  /-- payloads accepted by the channel so far, oldest first -/
  outbox : List Payload
  /-- `close` has been called on the channel -/
  closed : Bool
  /-- a send would complete without waiting -/
  ready : Bool
deriving DecidableEq, Repr

/-- Go run-time panics on channels. -/
inductive Panic where
  | closeOfClosedChannel
  | sendOnClosedChannel
deriving DecidableEq, Repr

/-- Result of attempting one channel send. -/
inductive SendResult where
  | sent (ch : Chan)
  | wouldBlock
  | panic (p : Panic)
deriving DecidableEq, Repr

/-- One attempt of `ch <- message`: panics on a closed channel, hands the
payload over when the receiver is waiting (which then is busy with it), and
otherwise cannot proceed. A plain send statement waits in the last case, a
`select` with a `default` takes the default. -/
def Chan.trySend (ch : Chan) (message : Payload) : SendResult :=
  if ch.closed then SendResult.panic Panic.sendOnClosedChannel
  else if ch.ready then
    SendResult.sent { outbox := ch.outbox ++ [message], closed := false, ready := false }
  else SendResult.wouldBlock

/-- The builtin `close(ch)`. -/
def Chan.close (ch : Chan) : Except Panic Chan :=
  if ch.closed then Except.error Panic.closeOfClosedChannel
  else Except.ok { ch with closed := true }

/-- The part of `type Client struct` the hub and the pumps use: the `id`
and the `send` channel (the socket is the pumps' input and output). -/
structure Client where
  id : String
  send : Chan
deriving DecidableEq, Repr

/-- The heap of `Client` values. -/
abbrev Heap := Ptr → Client

/-- Store a new state of the `send` channel of the client at `conn`. -/
def Heap.setSend (heap : Heap) (conn : Ptr) (ch : Chan) : Heap :=
  fun p => if p = conn then { heap p with send := ch } else heap p

/-- The hub, `type ClientManager struct`, together with the heap its keys
point into. The three event channels are the input of `start`. -/
structure ClientManager where
  /-- keys of `clients map[*Client]bool`, in `range` order -/
  clients : List Ptr
  /-- map keys are unique -/
  nodup : clients.Nodup
  heap : Heap

/-- What one piece of hub code does: it runs to its end, it is waiting in a
blocking send to `target`, or it panicked. -/
inductive Outcome where
  | done (m : ClientManager)
  | blocked (m : ClientManager) (target : Ptr)
  | panic (p : Panic)

/-- The body of `ClientManager.send`: the `range` loop over the keys still to
visit, with a blocking send to every key other than `ignore`. -/
def ClientManager.sendLoop (message : Payload) (ignore : Ptr) :
    List Ptr → ClientManager → Outcome
  | [], m => Outcome.done m
  | conn :: rest, m =>
    if conn ≠ ignore then
      match (m.heap conn).send.trySend message with
      | SendResult.sent ch =>
        ClientManager.sendLoop message ignore rest { m with heap := m.heap.setSend conn ch }
      | SendResult.wouldBlock => Outcome.blocked m conn
      | SendResult.panic p => Outcome.panic p
    else ClientManager.sendLoop message ignore rest m

/-- `func (manager *ClientManager) send(message []byte, ignore *Client)`. -/
def ClientManager.send (m : ClientManager) (message : Payload) (ignore : Ptr) : Outcome :=
  ClientManager.sendLoop message ignore m.clients m

/-- `delete(manager.clients, conn)`. -/
def ClientManager.delete (m : ClientManager) (conn : Ptr) : ClientManager :=
  { m with clients := m.clients.erase conn, nodup := m.nodup.erase conn }

/-- `manager.clients[conn] = true`. -/
def ClientManager.insert (m : ClientManager) (conn : Ptr) : ClientManager :=
  { m with clients := m.clients.insert conn, nodup := m.nodup.insert }

/-- The `range` loop of the broadcast case: a `select` with a send case and a
`default` that closes the channel and deletes the key. -/
def ClientManager.broadcastLoop (message : Payload) :
    List Ptr → ClientManager → Outcome
  | [], m => Outcome.done m
  | conn :: rest, m =>
    match (m.heap conn).send.trySend message with
    | SendResult.sent ch =>
      ClientManager.broadcastLoop message rest { m with heap := m.heap.setSend conn ch }
    | SendResult.wouldBlock =>
      match (m.heap conn).send.close with
      | Except.error p => Outcome.panic p
      | Except.ok ch =>
        ClientManager.broadcastLoop message rest
          ({ m with heap := m.heap.setSend conn ch }.delete conn)
    | SendResult.panic p => Outcome.panic p

/-- The notice of the register case, `&Message{Content: "/A socket has connected."}`. -/
def connectedNotice : Message :=
  { Sender := "", Recipient := "", Content := "/A socket has connected." }

/-- The notice of the unregister case,
`&Message{Content: "/A s ocket has disconnected."}`. -/
def disconnectedNotice : Message :=
  { Sender := "", Recipient := "", Content := "/A s ocket has disconnected." }

/-- What the serialization loop can receive on its three channels. -/
inductive Event where
  | register (conn : Ptr)
  | unregister (conn : Ptr)
  | broadcast (message : Payload)
deriving DecidableEq, Repr

/-- One iteration of the `for { select { ... } }` of `ClientManager.start`. -/
def ClientManager.handle (m : ClientManager) : Event → Outcome
  | Event.register conn => (m.insert conn).send connectedNotice conn
  | Event.unregister conn =>
    if conn ∈ m.clients then
      match (m.heap conn).send.close with
      | Except.error p => Outcome.panic p
      | Except.ok ch =>
        ({ m with heap := m.heap.setSend conn ch }.delete conn).send disconnectedNotice conn
    else Outcome.done m
  | Event.broadcast message => ClientManager.broadcastLoop message m.clients m

/-- What happens around the hub between two iterations of its loop. -/
inductive Action where
  /-- the hub receives an event -/
  | hub (ev : Event)
  /-- the outbound pump of `conn` is back at `<-c.send` -/
  | writerReady (conn : Ptr)
  /-- the run time picks the order in which `range` visits the keys -/
  | rangeOrder (order : List Ptr)
deriving DecidableEq, Repr

/-- The outbound pump of `conn` waits at its receive. -/
def ClientManager.writerReady (m : ClientManager) (conn : Ptr) : ClientManager :=
  { m with heap := m.heap.setSend conn { (m.heap conn).send with ready := true } }

/-- The keys are visited in the order `order`, when that is an order of the keys. -/
def ClientManager.rangeOrder (m : ClientManager) (order : List Ptr) : ClientManager :=
  if h : order.Perm m.clients then
    { m with clients := order, nodup := h.nodup_iff.mpr m.nodup }
  else m

/-- One action. -/
def ClientManager.act (m : ClientManager) : Action → Outcome
  | Action.hub ev => m.handle ev
  | Action.writerReady conn => Outcome.done (m.writerReady conn)
  | Action.rangeOrder order => Outcome.done (m.rangeOrder order)

/-- The loop of `ClientManager.start` on a finite sequence of actions: it goes
on while each iteration runs to its end. -/
def ClientManager.start (m : ClientManager) : List Action → Outcome
  | [] => Outcome.done m
  | a :: rest =>
    match m.act a with
    | Outcome.done m1 => ClientManager.start m1 rest
    | Outcome.blocked m1 target => Outcome.blocked m1 target
    | Outcome.panic p => Outcome.panic p

/-- A frame written to the socket: `websocket.TextMessage` with its payload, or
`websocket.CloseMessage`. -/
inductive Frame where
  | text (p : Payload)
  | close
deriving DecidableEq, Repr

/-- What the outbound pump has done: the frames it wrote, in order, and
whether `write` has returned. -/
structure Written where
  frames : List Frame
  returned : Bool
deriving DecidableEq, Repr

/-- The loop of `Client.write` on what the channel delivers: the payloads it
accepted, in order, and after them the closed signal if it was closed. -/
def Client.writeLoop : List Payload → Bool → Written
  | [], true => { frames := [Frame.close], returned := true }
  | [], false => { frames := [], returned := false }
  | message :: rest, closed =>
    let w := Client.writeLoop rest closed
    { frames := Frame.text message :: w.frames, returned := w.returned }

/-- `func (c *Client) write()`. -/
def Client.write (c : Client) : Written :=
  Client.writeLoop c.send.outbox c.send.closed

/-- The loop of `Client.read` on the results of `c.socket.ReadMessage()`:
`some message` for a frame, `none` for an error. It yields what the pump sends
to the hub: a broadcast per frame, and at the first error one unregister in the
error branch and one in the deferred function. -/
def Client.read (conn : Ptr) (id : String) : List (Option String) → List Event
  | [] => []
  | none :: _ => [Event.unregister conn, Event.unregister conn]
  | some message :: rest =>
    Event.broadcast { Sender := id, Recipient := "", Content := message }
      :: Client.read conn id rest

/-- The hub right after `var manager = ClientManager{...}`: no key, and the
heap given. -/
def ClientManager.empty (heap : Heap) : ClientManager :=
  { clients := [], nodup := List.nodup_nil, heap := heap }

/-- Every key of the map has an open `send` channel. -/
def ClientManager.ActiveOpen (m : ClientManager) : Prop :=
  ∀ c ∈ m.clients, (m.heap c).send.closed = false

/-- The connections registered by a sequence of actions, in order. -/
def registrations : List Action → List Ptr
  | [] => []
  | Action.hub (Event.register conn) :: rest => conn :: registrations rest
  | _ :: rest => registrations rest

/-- The hub state an outcome leaves behind, when there is one. -/
def Outcome.state? : Outcome → Option ClientManager
  | Outcome.done m => some m
  | Outcome.blocked m _ => some m
  | Outcome.panic _ => none

/-- The hub after `close(conn.send)` and `delete(manager.clients, conn)` on an
open channel: the state in which the unregister case calls `send`. -/
def ClientManager.closedAndDeleted (m : ClientManager) (conn : Ptr) : ClientManager :=
  { m with heap := (m.heap.setSend conn { (m.heap conn).send with closed := true }) }.delete conn

/-! ## Predicates used in the proofs -/

/-- How the channels and the key set of a later state `m'` relate to those of
an earlier state `m` across one action. -/
structure ClientManager.StepFrame (m m' : ClientManager) : Prop where
  grows : ∀ p, ∃ t, (m'.heap p).send.outbox = (m.heap p).send.outbox ++ t
  closedKept : ∀ p, (m.heap p).send.closed = true →
    (m'.heap p).send.closed = true ∧ (m'.heap p).send.outbox = (m.heap p).send.outbox
  closes : ∀ p, (m'.heap p).send.closed = true → (m.heap p).send.closed = false →
    p ∈ m.clients ∧ p ∉ m'.clients
  members : ∀ p ∈ m'.clients, (m'.heap p).send.closed = (m.heap p).send.closed
  outside : ∀ p, p ∉ m.clients →
    (m'.heap p).send.closed = (m.heap p).send.closed ∧
    (m'.heap p).send.outbox = (m.heap p).send.outbox

/-- The bookkeeping of a run: every key has an open channel, every connection
not in `R` (not registered so far) has an open channel, and every key is in `R`. -/
def ClientManager.Tracked (m : ClientManager) (R : List Ptr) : Prop :=
  m.ActiveOpen ∧ (∀ c, c ∉ R → (m.heap c).send.closed = false) ∧ (∀ c ∈ m.clients, c ∈ R)

/-! ## Concrete hubs -/

/-- A heap of three named clients (and more) whose channels are unused and
whose outbound pumps all wait at their receive. -/
def idleHeap : Heap := fun p =>
  { id := if p = 1 then "A" else if p = 2 then "B" else "C",
    send := { outbox := [], closed := false, ready := true } }

/-- The hub with the keys A = 1, B = 2, C = 3 on `idleHeap`. -/
def hubABC : ClientManager :=
  { clients := [1, 2, 3], nodup := by decide, heap := idleHeap }

/-- The envelope the inbound pump of A builds from the frame "hi". -/
def hiFromA : Message := { Sender := "A", Recipient := "", Content := "hi" }

/-- A second envelope from A. -/
def hoFromA : Message := { Sender := "A", Recipient := "", Content := "ho" }

/-- The hub with the keys 1 and 2 where the outbound pump of 1 is not at its
receive (a slow client) and that of 2 is. -/
def slowHub : ClientManager :=
  { clients := [1, 2], nodup := by decide,
    heap := fun p => { id := "", send := { outbox := [], closed := false, ready := p != 1 } } }

/-- A, B and C register in this order; between the registrations the pumps of
the clients that got a notice come back to their receive. -/
def registerABC : List Action :=
  [Action.hub (Event.register 1), Action.hub (Event.register 2), Action.writerReady 1,
   Action.hub (Event.register 3), Action.writerReady 1, Action.writerReady 2]

/-- Connection 2 registers; connection 1 registers, is unregistered and
registers again; the pump of 2 comes back to its receive after each notice. -/
def reviveOne : List Action :=
  [Action.hub (Event.register 2), Action.hub (Event.register 1), Action.writerReady 2,
   Action.hub (Event.unregister 1), Action.writerReady 2,
   Action.hub (Event.register 1), Action.writerReady 2]

/-! ## Heap and channel facts -/

@[simp]
theorem Heap.setSend_same (heap : Heap) (c : Ptr) (ch : Chan) :
    (heap.setSend c ch c).send = ch := by
  simp [Heap.setSend]

theorem Heap.setSend_other (heap : Heap) (ch : Chan) {p c : Ptr} (h : p ≠ c) :
    heap.setSend c ch p = heap p := by
  simp [Heap.setSend, h]

@[simp]
theorem Heap.setSend_id (heap : Heap) (c p : Ptr) (ch : Chan) :
    (heap.setSend c ch p).id = (heap p).id := by
  unfold Heap.setSend
  split <;> rfl

theorem Chan.trySend_ready (ch : Chan) (message : Payload)
    (hc : ch.closed = false) (hr : ch.ready = true) :
    ch.trySend message =
      SendResult.sent { outbox := ch.outbox ++ [message], closed := false, ready := false } := by
  simp [Chan.trySend, hc, hr]

theorem Chan.trySend_busy (ch : Chan) (message : Payload)
    (hc : ch.closed = false) (hr : ch.ready = false) :
    ch.trySend message = SendResult.wouldBlock := by
  simp [Chan.trySend, hc, hr]

theorem Chan.trySend_closed (ch : Chan) (message : Payload) (hc : ch.closed = true) :
    ch.trySend message = SendResult.panic Panic.sendOnClosedChannel := by
  simp [Chan.trySend, hc]

theorem Chan.close_open (ch : Chan) (hc : ch.closed = false) :
    ch.close = Except.ok { ch with closed := true } := by
  simp [Chan.close, hc]

theorem Chan.close_closed (ch : Chan) (hc : ch.closed = true) :
    ch.close = Except.error Panic.closeOfClosedChannel := by
  simp [Chan.close, hc]

theorem ClientManager.mem_delete (m : ClientManager) (conn p : Ptr) :
    p ∈ (m.delete conn).clients ↔ p ≠ conn ∧ p ∈ m.clients := by
  simp [ClientManager.delete, m.nodup.mem_erase_iff]

theorem ClientManager.mem_insert (m : ClientManager) (conn p : Ptr) :
    p ∈ (m.insert conn).clients ↔ p = conn ∨ p ∈ m.clients := by
  simp [ClientManager.insert]

/-! ## What the loop of `send` leaves unchanged -/

theorem ClientManager.sendLoop_frame (message : Payload) (ignore : Ptr) :
    ∀ (l : List Ptr) (m m' : ClientManager),
      (ClientManager.sendLoop message ignore l m).state? = some m' →
      m'.clients = m.clients ∧
      ∀ p, (m'.heap p).send.closed = (m.heap p).send.closed ∧
        (∃ t, (m'.heap p).send.outbox = (m.heap p).send.outbox ++ t) ∧
        ((p ∉ l ∨ p = ignore ∨ (m.heap p).send.closed = true) → m'.heap p = m.heap p) := by
  intro l
  induction l with
  | nil =>
    intro m m' h
    simp only [ClientManager.sendLoop, Outcome.state?, Option.some.injEq] at h
    subst h
    exact ⟨rfl, fun p => ⟨rfl, ⟨[], by simp⟩, fun _ => rfl⟩⟩
  | cons conn rest ih =>
    intro m m' h
    unfold ClientManager.sendLoop at h
    by_cases hci : conn = ignore
    · simp only [hci, ne_eq, not_true_eq_false, if_false] at h
      obtain ⟨h1, h2⟩ := ih m m' h
      refine ⟨h1, fun p => ⟨(h2 p).1, (h2 p).2.1, fun hp => (h2 p).2.2 ?_⟩⟩
      rcases hp with hp | hp | hp
      · exact Or.inl (fun hm => hp (List.mem_cons_of_mem _ hm))
      · exact Or.inr (Or.inl hp)
      · exact Or.inr (Or.inr hp)
    · simp only [ne_eq, hci, not_false_eq_true, if_true] at h
      cases hcl : (m.heap conn).send.closed with
      | true =>
        rw [Chan.trySend_closed _ _ hcl] at h
        simp [Outcome.state?] at h
      | false =>
        cases hrd : (m.heap conn).send.ready with
        | false =>
          rw [Chan.trySend_busy _ _ hcl hrd] at h
          simp only [Outcome.state?, Option.some.injEq] at h
          subst h
          exact ⟨rfl, fun p => ⟨rfl, ⟨[], by simp⟩, fun _ => rfl⟩⟩
        | true =>
          rw [Chan.trySend_ready _ _ hcl hrd] at h
          obtain ⟨h1, h2⟩ := ih _ m' h
          refine ⟨h1, fun p => ?_⟩
          obtain ⟨hc, ⟨t, ht⟩, hsame⟩ := h2 p
          by_cases hp : p = conn
          · subst hp
            simp only [Heap.setSend_same] at hc ht hsame
            refine ⟨by rw [hc, hcl], ⟨message :: t, by rw [ht]; simp⟩, fun hx => ?_⟩
            rcases hx with hx | hx | hx
            · exact absurd (List.mem_cons_self _ _) hx
            · exact absurd hx hci
            · rw [hcl] at hx; exact absurd hx (by decide)
          · simp only [Heap.setSend_other _ _ hp] at hc ht hsame
            refine ⟨hc, ⟨t, ht⟩, fun hx => hsame ?_⟩
            rcases hx with hx | hx | hx
            · exact Or.inl (fun hm => hx (List.mem_cons_of_mem _ hm))
            · exact Or.inr (Or.inl hx)
            · exact Or.inr (Or.inr hx)

/-! ## What the loop of the broadcast case leaves unchanged -/

theorem ClientManager.broadcastLoop_frame (message : Payload) :
    ∀ (l : List Ptr) (m m' : ClientManager),
      (ClientManager.broadcastLoop message l m).state? = some m' →
      (∀ p, p ∈ m'.clients → p ∈ m.clients) ∧
      ∀ p, ((m'.heap p).send.outbox = (m.heap p).send.outbox ∨
          (m'.heap p).send.outbox = (m.heap p).send.outbox ++ [message] ∨
          ∃ t, p ∈ l ∧ (m'.heap p).send.outbox = (m.heap p).send.outbox ++ message :: t) ∧
        ((p ∉ l ∨ (m.heap p).send.closed = true) → m'.heap p = m.heap p) ∧
        (p ∈ m'.clients → (m'.heap p).send.closed = (m.heap p).send.closed) ∧
        ((m'.heap p).send.closed = true → (m.heap p).send.closed = false →
          p ∈ l ∧ p ∉ m'.clients) := by
  intro l
  induction l with
  | nil =>
    intro m m' h
    simp only [ClientManager.broadcastLoop, Outcome.state?, Option.some.injEq] at h
    subst h
    refine ⟨fun _ hp => hp, fun p => ⟨Or.inl rfl, fun _ => rfl, fun _ => rfl, fun h1 h2 => ?_⟩⟩
    rw [h1] at h2
    exact absurd h2 (by decide)
  | cons conn rest ih =>
    intro m m' h
    unfold ClientManager.broadcastLoop at h
    cases hcl : (m.heap conn).send.closed with
    | true =>
      rw [Chan.trySend_closed _ _ hcl] at h
      simp [Outcome.state?] at h
    | false =>
      cases hrd : (m.heap conn).send.ready with
      | true =>
        rw [Chan.trySend_ready _ _ hcl hrd] at h
        obtain ⟨h1, h2⟩ := ih _ m' h
        refine ⟨h1, fun p => ?_⟩
        obtain ⟨hob, hsame, hmem, hclose⟩ := h2 p
        by_cases hp : p = conn
        · subst hp
          simp only [Heap.setSend_same] at hob hsame hmem hclose
          refine ⟨?_, fun hx => ?_, fun hx => by rw [hmem hx, hcl], fun hx _ => ?_⟩
          · rcases hob with hob | hob | ⟨t, ht, hob⟩
            · exact Or.inr (Or.inl hob)
            · exact Or.inr (Or.inr ⟨[message], List.mem_cons_self _ _, by rw [hob]; simp⟩)
            · exact Or.inr (Or.inr ⟨message :: t, List.mem_cons_self _ _, by rw [hob]; simp⟩)
          · rcases hx with hx | hx
            · exact absurd (List.mem_cons_self _ _) hx
            · rw [hcl] at hx; exact absurd hx (by decide)
          · exact ⟨List.mem_cons_self _ _, (hclose hx trivial).2⟩
        · simp only [Heap.setSend_other _ _ hp] at hob hsame hmem hclose
          refine ⟨?_, fun hx => hsame ?_, hmem, fun hx hy => ?_⟩
          · rcases hob with hob | hob | ⟨t, ht, hob⟩
            · exact Or.inl hob
            · exact Or.inr (Or.inl hob)
            · exact Or.inr (Or.inr ⟨t, List.mem_cons_of_mem _ ht, hob⟩)
          · rcases hx with hx | hx
            · exact Or.inl (fun hm => hx (List.mem_cons_of_mem _ hm))
            · exact Or.inr hx
          · exact ⟨List.mem_cons_of_mem _ (hclose hx hy).1, (hclose hx hy).2⟩
      | false =>
        rw [Chan.trySend_busy _ _ hcl hrd, Chan.close_open _ hcl] at h
        obtain ⟨h1, h2⟩ := ih _ m' h
        have hdel : ∀ q, q ∈ m'.clients → q ≠ conn ∧ q ∈ m.clients := fun q hq =>
          (ClientManager.mem_delete _ conn q).1 (h1 q hq)
        refine ⟨fun q hq => (hdel q hq).2, fun p => ?_⟩
        obtain ⟨hob, hsame, hmem, hclose⟩ := h2 p
        by_cases hp : p = conn
        · subst hp
          simp only [ClientManager.delete, Heap.setSend_same] at hob hsame hmem hclose
          have hkeep := hsame (Or.inr trivial)
          refine ⟨Or.inl ?_, fun hx => ?_, fun hx => absurd rfl (hdel p hx).1,
            fun _ _ => ⟨List.mem_cons_self _ _, fun hx => absurd rfl (hdel p hx).1⟩⟩
          · rw [hkeep]; simp
          · rcases hx with hx | hx
            · exact absurd (List.mem_cons_self _ _) hx
            · rw [hcl] at hx; exact absurd hx (by decide)
        · simp only [ClientManager.delete, Heap.setSend_other _ _ hp] at hob hsame hmem hclose
          refine ⟨?_, fun hx => hsame ?_, hmem, fun hx hy => ?_⟩
          · rcases hob with hob | hob | ⟨t, ht, hob⟩
            · exact Or.inl hob
            · exact Or.inr (Or.inl hob)
            · exact Or.inr (Or.inr ⟨t, List.mem_cons_of_mem _ ht, hob⟩)
          · rcases hx with hx | hx
            · exact Or.inl (fun hm => hx (List.mem_cons_of_mem _ hm))
            · exact Or.inr hx
          · exact ⟨List.mem_cons_of_mem _ (hclose hx hy).1, (hclose hx hy).2⟩

/-! ## The loops when they run to their end -/

theorem ClientManager.sendLoop_done (message : Payload) (ignore : Ptr) :
    ∀ (l : List Ptr) (m : ClientManager), l.Nodup →
      (∀ c ∈ l, c ≠ ignore → (m.heap c).send.closed = false ∧ (m.heap c).send.ready = true) →
      ∃ m', ClientManager.sendLoop message ignore l m = Outcome.done m' ∧
        ∀ p ∈ l, p ≠ ignore → (m'.heap p).send =
          { outbox := (m.heap p).send.outbox ++ [message], closed := false, ready := false } := by
  intro l
  induction l with
  | nil =>
    intro m _ _
    exact ⟨m, rfl, fun p hp => absurd hp (List.not_mem_nil p)⟩
  | cons conn rest ih =>
    intro m hnd hready
    have hnotin : conn ∉ rest := (List.nodup_cons.1 hnd).1
    have hnd' : rest.Nodup := (List.nodup_cons.1 hnd).2
    unfold ClientManager.sendLoop
    by_cases hci : conn = ignore
    · simp only [hci, ne_eq, not_true_eq_false, if_false]
      obtain ⟨m', hm', hp'⟩ := ih m hnd' (fun c hc => hready c (List.mem_cons_of_mem _ hc))
      refine ⟨m', hm', fun p hp hne => ?_⟩
      rcases List.mem_cons.1 hp with hp | hp
      · exact absurd hp hne
      · exact hp' p hp hne
    · simp only [ne_eq, hci, not_false_eq_true, if_true]
      obtain ⟨hcl, hrd⟩ := hready conn (List.mem_cons_self _ _) hci
      rw [Chan.trySend_ready _ _ hcl hrd]
      have hrest : ∀ c ∈ rest, c ≠ conn := fun c hc he => hnotin (he ▸ hc)
      obtain ⟨m', hm', hp'⟩ := ih { m with heap := (m.heap.setSend conn
          { outbox := (m.heap conn).send.outbox ++ [message], closed := false, ready := false }) }
        hnd' (fun c hc hne => by
          simp only [Heap.setSend_other _ _ (hrest c hc)]
          exact hready c (List.mem_cons_of_mem _ hc) hne)
      refine ⟨m', hm', fun p hp hne => ?_⟩
      rcases List.mem_cons.1 hp with hp | hp
      · subst hp
        have hfr := (ClientManager.sendLoop_frame message ignore rest _ m'
          (by rw [hm']; rfl)).2 p
        rw [hfr.2.2 (Or.inl hnotin)]
        simp
      · have := hp' p hp hne
        simpa only [Heap.setSend_other _ _ (hrest p hp)] using this

theorem ClientManager.broadcastLoop_done (message : Payload) :
    ∀ (l : List Ptr) (m : ClientManager), l.Nodup →
      (∀ c ∈ l, (m.heap c).send.closed = false) →
      ∃ m', ClientManager.broadcastLoop message l m = Outcome.done m' ∧
        (∀ p, p ∈ m'.clients ↔ p ∈ m.clients ∧ (p ∈ l → (m.heap p).send.ready = true)) ∧
        ∀ p ∈ l,
          ((m.heap p).send.ready = true → (m'.heap p).send =
            { outbox := (m.heap p).send.outbox ++ [message], closed := false, ready := false }) ∧
          ((m.heap p).send.ready = false → (m'.heap p).send =
            { (m.heap p).send with closed := true }) := by
  intro l
  induction l with
  | nil =>
    intro m _ _
    exact ⟨m, rfl, fun p => by simp, fun p hp => absurd hp (List.not_mem_nil p)⟩
  | cons conn rest ih =>
    intro m hnd hopen
    have hnotin : conn ∉ rest := (List.nodup_cons.1 hnd).1
    have hnd' : rest.Nodup := (List.nodup_cons.1 hnd).2
    have hrest : ∀ c ∈ rest, c ≠ conn := fun c hc he => hnotin (he ▸ hc)
    have hcl := hopen conn (List.mem_cons_self _ _)
    unfold ClientManager.broadcastLoop
    cases hrd : (m.heap conn).send.ready with
    | true =>
      rw [Chan.trySend_ready _ _ hcl hrd]
      obtain ⟨m', hm', hmem, hp'⟩ := ih { m with heap := (m.heap.setSend conn
          { outbox := (m.heap conn).send.outbox ++ [message], closed := false, ready := false }) }
        hnd' (fun c hc => by
          simp only [Heap.setSend_other _ _ (hrest c hc)]
          exact hopen c (List.mem_cons_of_mem _ hc))
      have hfr := (ClientManager.broadcastLoop_frame message rest _ m' (by rw [hm']; rfl)).2
      refine ⟨m', hm', fun p => ?_, fun p hp => ?_⟩
      · rw [hmem p]
        by_cases hpc : p = conn
        · subst hpc
          simp [hnotin, hrd]
        · simp [Heap.setSend_other _ _ hpc, hpc]
      · rcases List.mem_cons.1 hp with hp | hp
        · subst hp
          rw [(hfr p).2.1 (Or.inl hnotin)]
          simp [hrd]
        · have := hp' p hp
          simpa only [Heap.setSend_other _ _ (hrest p hp)] using this
    | false =>
      rw [Chan.trySend_busy _ _ hcl hrd, Chan.close_open _ hcl]
      obtain ⟨m', hm', hmem, hp'⟩ := ih ({ m with heap := (m.heap.setSend conn
          { (m.heap conn).send with closed := true }) }.delete conn)
        hnd' (fun c hc => by
          simp only [ClientManager.delete, Heap.setSend_other _ _ (hrest c hc)]
          exact hopen c (List.mem_cons_of_mem _ hc))
      have hfr := (ClientManager.broadcastLoop_frame message rest _ m' (by rw [hm']; rfl)).2
      refine ⟨m', hm', fun p => ?_, fun p hp => ?_⟩
      · rw [hmem p, ClientManager.mem_delete]
        by_cases hpc : p = conn
        · subst hpc
          simp [hrd]
        · simp [ClientManager.delete, Heap.setSend_other _ _ hpc, hpc]
      · rcases List.mem_cons.1 hp with hp | hp
        · subst hp
          rw [(hfr p).2.1 (Or.inl hnotin)]
          simp [ClientManager.delete, hrd]
        · have := hp' p hp
          simpa only [ClientManager.delete, Heap.setSend_other _ _ (hrest p hp)] using this

/-! ## What one iteration of the hub loop leaves unchanged -/

theorem ClientManager.StepFrame.same (m : ClientManager) : m.StepFrame m where
  grows := fun _ => ⟨[], by simp⟩
  closedKept := fun _ h => ⟨h, rfl⟩
  closes := fun _ h1 h2 => by rw [h1] at h2; exact absurd h2 (by decide)
  members := fun _ _ => rfl
  outside := fun _ _ => ⟨rfl, rfl⟩

theorem ClientManager.handle_frame (m m' : ClientManager) (ev : Event)
    (h : (m.handle ev).state? = some m') : m.StepFrame m' := by
  cases ev with
  | register conn =>
    simp only [ClientManager.handle, ClientManager.send] at h
    obtain ⟨_, h2⟩ := ClientManager.sendLoop_frame _ _ _ _ _ h
    have hheap : (m.insert conn).heap = m.heap := rfl
    simp only [hheap] at h2
    refine ⟨fun p => (h2 p).2.1, fun p hp => ?_, fun p h3 h4 => ?_, fun p _ => (h2 p).1,
      fun p hp => ?_⟩
    · rw [(h2 p).2.2 (Or.inr (Or.inr hp))]; exact ⟨hp, rfl⟩
    · rw [(h2 p).1, h4] at h3; exact absurd h3 (by decide)
    · by_cases hpc : p = conn
      · rw [(h2 p).2.2 (Or.inr (Or.inl hpc))]; exact ⟨rfl, rfl⟩
      · have : p ∉ (m.insert conn).clients := by
          rw [ClientManager.mem_insert]; exact fun hx => hx.elim hpc hp
        rw [(h2 p).2.2 (Or.inl this)]; exact ⟨rfl, rfl⟩
  | unregister conn =>
    simp only [ClientManager.handle] at h
    by_cases hin : conn ∈ m.clients
    · simp only [hin, if_true] at h
      cases hcl : (m.heap conn).send.closed with
      | true =>
        rw [Chan.close_closed _ hcl] at h
        simp [Outcome.state?] at h
      | false =>
        rw [Chan.close_open _ hcl] at h
        simp only [ClientManager.send] at h
        obtain ⟨h1, h2⟩ := ClientManager.sendLoop_frame _ _ _ _ _ h
        have hconn : m'.heap conn = (m.heap.setSend conn
            { (m.heap conn).send with closed := true }) conn := (h2 conn).2.2 (Or.inr (Or.inl rfl))
        have hother : ∀ p, p ≠ conn →
            (m'.heap p).send.closed = (m.heap p).send.closed ∧
            (∃ t, (m'.heap p).send.outbox = (m.heap p).send.outbox ++ t) ∧
            ((p ∉ m.clients ∨ (m.heap p).send.closed = true) → m'.heap p = m.heap p) := by
          intro p hp
          have := h2 p
          simp only [ClientManager.delete, Heap.setSend_other _ _ hp] at this
          refine ⟨this.1, this.2.1, fun hx => this.2.2 ?_⟩
          rcases hx with hx | hx
          · exact Or.inl (fun hm => hx (List.mem_of_mem_erase hm))
          · exact Or.inr (Or.inr hx)
        have hmem : ∀ p, p ∈ m'.clients → p ≠ conn ∧ p ∈ m.clients := by
          intro p hp
          rw [h1] at hp
          exact (ClientManager.mem_delete _ conn p).1 hp
        refine ⟨fun p => ?_, fun p hp => ?_, fun p h3 h4 => ?_, fun p hp => ?_, fun p hp => ?_⟩
        · by_cases hpc : p = conn
          · subst hpc; exact ⟨[], by rw [hconn]; simp⟩
          · exact (hother p hpc).2.1
        · by_cases hpc : p = conn
          · subst hpc; rw [hcl] at hp; exact absurd hp (by decide)
          · rw [(hother p hpc).2.2 (Or.inr hp)]; exact ⟨hp, rfl⟩
        · by_cases hpc : p = conn
          · subst hpc; exact ⟨hin, fun hx => (hmem p hx).1 rfl⟩
          · rw [(hother p hpc).1, h4] at h3; exact absurd h3 (by decide)
        · exact (hother p (hmem p hp).1).1
        · have hpc : p ≠ conn := fun he => hp (he ▸ hin)
          rw [(hother p hpc).2.2 (Or.inl hp)]; exact ⟨rfl, rfl⟩
    · simp only [hin, if_false, Outcome.state?, Option.some.injEq] at h
      subst h
      exact ClientManager.StepFrame.same m
  | broadcast message =>
    simp only [ClientManager.handle] at h
    obtain ⟨h1, h2⟩ := ClientManager.broadcastLoop_frame _ _ _ _ h
    refine ⟨fun p => ?_, fun p hp => ?_, fun p h3 h4 => (h2 p).2.2.2 h3 h4,
      fun p hp => (h2 p).2.2.1 hp, fun p hp => ?_⟩
    · rcases (h2 p).1 with hob | hob | ⟨t, _, hob⟩
      · exact ⟨[], by rw [hob]; simp⟩
      · exact ⟨[message], hob⟩
      · exact ⟨message :: t, hob⟩
    · rw [(h2 p).2.1 (Or.inr hp)]; exact ⟨hp, rfl⟩
    · rw [(h2 p).2.1 (Or.inl hp)]; exact ⟨rfl, rfl⟩

theorem ClientManager.handle_members (m m' : ClientManager) (ev : Event)
    (h : (m.handle ev).state? = some m') (p : Ptr) (hp : p ∈ m'.clients) :
    p ∈ m.clients ∨ ev = Event.register p := by
  cases ev with
  | register conn =>
    simp only [ClientManager.handle, ClientManager.send] at h
    obtain ⟨h1, _⟩ := ClientManager.sendLoop_frame _ _ _ _ _ h
    rw [h1, ClientManager.mem_insert] at hp
    rcases hp with hp | hp
    · exact Or.inr (by rw [hp])
    · exact Or.inl hp
  | unregister conn =>
    simp only [ClientManager.handle] at h
    by_cases hin : conn ∈ m.clients
    · simp only [hin, if_true] at h
      cases hcl : (m.heap conn).send.closed with
      | true =>
        rw [Chan.close_closed _ hcl] at h
        simp [Outcome.state?] at h
      | false =>
        rw [Chan.close_open _ hcl] at h
        simp only [ClientManager.send] at h
        obtain ⟨h1, _⟩ := ClientManager.sendLoop_frame _ _ _ _ _ h
        rw [h1] at hp
        exact Or.inl ((ClientManager.mem_delete _ conn p).1 hp).2
    · simp only [hin, if_false, Outcome.state?, Option.some.injEq] at h
      subst h
      exact Or.inl hp
  | broadcast message =>
    simp only [ClientManager.handle] at h
    exact Or.inl ((ClientManager.broadcastLoop_frame _ _ _ _ h).1 p hp)

/-! ## No panic while every key has an open channel -/

theorem ClientManager.sendLoop_no_panic (message : Payload) (ignore : Ptr) :
    ∀ (l : List Ptr) (m : ClientManager),
      (∀ c ∈ l, c ≠ ignore → (m.heap c).send.closed = false) →
      ∀ q, ClientManager.sendLoop message ignore l m ≠ Outcome.panic q := by
  intro l
  induction l with
  | nil =>
    intro m _ q h
    simp [ClientManager.sendLoop] at h
  | cons conn rest ih =>
    intro m hopen q
    unfold ClientManager.sendLoop
    by_cases hci : conn = ignore
    · simp only [hci, ne_eq, not_true_eq_false, if_false]
      exact ih m (fun c hc => hopen c (List.mem_cons_of_mem _ hc)) q
    · simp only [ne_eq, hci, not_false_eq_true, if_true]
      have hcl := hopen conn (List.mem_cons_self _ _) hci
      cases hrd : (m.heap conn).send.ready with
      | false =>
        rw [Chan.trySend_busy _ _ hcl hrd]
        simp
      | true =>
        rw [Chan.trySend_ready _ _ hcl hrd]
        refine ih _ (fun c hc hne => ?_) q
        by_cases hcc : c = conn
        · subst hcc; simp
        · simp only [Heap.setSend_other _ _ hcc]
          exact hopen c (List.mem_cons_of_mem _ hc) hne

theorem ClientManager.handle_no_panic (m : ClientManager) (ev : Event)
    (hopen : m.ActiveOpen) (q : Panic) : m.handle ev ≠ Outcome.panic q := by
  cases ev with
  | register conn =>
    simp only [ClientManager.handle, ClientManager.send]
    refine ClientManager.sendLoop_no_panic _ _ _ _ (fun c hc hne => ?_) q
    rcases (ClientManager.mem_insert m conn c).1 hc with hc | hc
    · exact absurd hc hne
    · exact hopen c hc
  | unregister conn =>
    simp only [ClientManager.handle]
    by_cases hin : conn ∈ m.clients
    · simp only [hin, if_true]
      rw [Chan.close_open _ (hopen conn hin)]
      simp only [ClientManager.send]
      refine ClientManager.sendLoop_no_panic _ _ _ _ (fun c hc hne => ?_) q
      simp only [ClientManager.delete, Heap.setSend_other _ _ hne]
      exact hopen c (List.mem_of_mem_erase hc)
    · simp [hin]
  | broadcast message =>
    simp only [ClientManager.handle]
    obtain ⟨m', hm', _⟩ := ClientManager.broadcastLoop_done message m.clients m m.nodup hopen
    rw [hm']
    simp

/-! ## Actions -/

theorem ClientManager.mem_rangeOrder (m : ClientManager) (order : List Ptr) (p : Ptr) :
    p ∈ (m.rangeOrder order).clients ↔ p ∈ m.clients := by
  unfold ClientManager.rangeOrder
  split
  · next h => exact h.mem_iff
  · exact Iff.rfl

theorem ClientManager.rangeOrder_heap (m : ClientManager) (order : List Ptr) :
    (m.rangeOrder order).heap = m.heap := by
  unfold ClientManager.rangeOrder
  split <;> rfl

theorem ClientManager.act_frame (m m' : ClientManager) (a : Action)
    (h : (m.act a).state? = some m') : m.StepFrame m' := by
  cases a with
  | hub ev => exact ClientManager.handle_frame m m' ev h
  | writerReady conn =>
    simp only [ClientManager.act, Outcome.state?, Option.some.injEq] at h
    subst h
    have hsend : ∀ p, ((m.writerReady conn).heap p).send.closed = (m.heap p).send.closed ∧
        ((m.writerReady conn).heap p).send.outbox = (m.heap p).send.outbox := by
      intro p
      by_cases hp : p = conn
      · subst hp; simp [ClientManager.writerReady]
      · simp [ClientManager.writerReady, Heap.setSend_other _ _ hp]
    refine ⟨fun p => ⟨[], by rw [(hsend p).2]; simp⟩, fun p hp => ?_, fun p h1 h2 => ?_,
      fun p _ => (hsend p).1, fun p _ => hsend p⟩
    · rw [(hsend p).1, (hsend p).2]; exact ⟨hp, rfl⟩
    · rw [(hsend p).1, h2] at h1; exact absurd h1 (by decide)
  | rangeOrder order =>
    simp only [ClientManager.act, Outcome.state?, Option.some.injEq] at h
    subst h
    have hheap := ClientManager.rangeOrder_heap m order
    refine ⟨fun p => ⟨[], by rw [hheap]; simp⟩, fun p hp => ?_, fun p h1 h2 => ?_,
      fun p _ => by rw [hheap], fun p _ => by rw [hheap]; exact ⟨rfl, rfl⟩⟩
    · rw [hheap]; exact ⟨hp, rfl⟩
    · rw [hheap, h2] at h1; exact absurd h1 (by decide)

theorem ClientManager.act_members (m m' : ClientManager) (a : Action)
    (h : (m.act a).state? = some m') (p : Ptr) (hp : p ∈ m'.clients) :
    p ∈ m.clients ∨ a = Action.hub (Event.register p) := by
  cases a with
  | hub ev =>
    rcases ClientManager.handle_members m m' ev h p hp with h1 | h1
    · exact Or.inl h1
    · exact Or.inr (by rw [h1])
  | writerReady conn =>
    simp only [ClientManager.act, Outcome.state?, Option.some.injEq] at h
    subst h
    exact Or.inl hp
  | rangeOrder order =>
    simp only [ClientManager.act, Outcome.state?, Option.some.injEq] at h
    subst h
    exact Or.inl ((ClientManager.mem_rangeOrder m order p).1 hp)

theorem ClientManager.act_no_panic (m : ClientManager) (a : Action)
    (hopen : m.ActiveOpen) (q : Panic) : m.act a ≠ Outcome.panic q := by
  cases a with
  | hub ev => exact ClientManager.handle_no_panic m ev hopen q
  | writerReady conn => simp [ClientManager.act]
  | rangeOrder order => simp [ClientManager.act]

/-! ## Runs of the hub loop -/

theorem registrations_cons (a : Action) (rest : List Action) :
    registrations (a :: rest) = registrations [a] ++ registrations rest := by
  cases a with
  | hub ev => cases ev <;> simp [registrations]
  | writerReady conn => simp [registrations]
  | rangeOrder order => simp [registrations]

theorem mem_registrations_single (p : Ptr) :
    p ∈ registrations [Action.hub (Event.register p)] := by
  simp [registrations]

theorem ClientManager.act_tracked (m m' : ClientManager) (a : Action) (R : List Ptr)
    (hT : m.Tracked R) (hnew : ∀ c ∈ registrations [a], c ∉ R)
    (h : (m.act a).state? = some m') : m'.Tracked (registrations [a] ++ R) := by
  obtain ⟨hopen, hfresh, hsub⟩ := hT
  have hfr := ClientManager.act_frame m m' a h
  refine ⟨fun p hp => ?_, fun c hc => ?_, fun c hc => ?_⟩
  · rw [hfr.members p hp]
    rcases ClientManager.act_members m m' a h p hp with h1 | h1
    · exact hopen p h1
    · exact hfresh p (hnew p (h1 ▸ mem_registrations_single p))
  · have hcR : c ∉ R := fun hx => hc (List.mem_append_right _ hx)
    rw [(hfr.outside c (fun hx => hcR (hsub c hx))).1]
    exact hfresh c hcR
  · rcases ClientManager.act_members m m' a h c hc with h1 | h1
    · exact List.mem_append_right _ (hsub c h1)
    · exact List.mem_append_left _ (h1 ▸ mem_registrations_single c)

theorem ClientManager.start_tracked :
    ∀ (acts : List Action) (m : ClientManager) (R : List Ptr), m.Tracked R →
      (registrations acts).Nodup → (∀ c ∈ registrations acts, c ∉ R) →
      (∀ q, m.start acts ≠ Outcome.panic q) ∧
      ∀ m', (m.start acts).state? = some m' → m'.ActiveOpen := by
  intro acts
  induction acts with
  | nil =>
    intro m R hT _ _
    refine ⟨fun q h => by simp [ClientManager.start] at h, fun m' h => ?_⟩
    simp only [ClientManager.start, Outcome.state?, Option.some.injEq] at h
    subst h
    exact hT.1
  | cons a rest ih =>
    intro m R hT hnd hdis
    rw [registrations_cons] at hnd hdis
    have hnd' := List.nodup_append.1 hnd
    have hnew : ∀ c ∈ registrations [a], c ∉ R := fun c hc =>
      hdis c (List.mem_append_left _ hc)
    unfold ClientManager.start
    cases hact : m.act a with
    | done m1 =>
      have hT1 := ClientManager.act_tracked m m1 a R hT hnew (by rw [hact]; rfl)
      refine ih m1 _ hT1 hnd'.2.1 (fun c hc hx => ?_)
      rcases List.mem_append.1 hx with hx | hx
      · exact hnd'.2.2 hx hc
      · exact hdis c (List.mem_append_right _ hc) hx
    | blocked m1 t =>
      have hT1 := ClientManager.act_tracked m m1 a R hT hnew (by rw [hact]; rfl)
      refine ⟨fun q h => by simp at h, fun m' h => ?_⟩
      simp only [Outcome.state?, Option.some.injEq] at h
      subst h
      exact hT1.1
    | panic q => exact absurd hact (ClientManager.act_no_panic m a hT.1 q)

theorem ClientManager.start_terminal :
    ∀ (acts : List Action) (m : ClientManager) (c : Ptr), c ∉ m.clients →
      (m.heap c).send.closed = true →
      (∀ a ∈ acts, a ≠ Action.hub (Event.register c)) →
      ∀ m', (m.start acts).state? = some m' →
        c ∉ m'.clients ∧ (m'.heap c).send.closed = true ∧
        (m'.heap c).send.outbox = (m.heap c).send.outbox := by
  intro acts
  induction acts with
  | nil =>
    intro m c hc hcl _ m' h
    simp only [ClientManager.start, Outcome.state?, Option.some.injEq] at h
    subst h
    exact ⟨hc, hcl, rfl⟩
  | cons a rest ih =>
    intro m c hc hcl hno m' h
    unfold ClientManager.start at h
    have hstep : ∀ m1, (m.act a).state? = some m1 →
        c ∉ m1.clients ∧ (m1.heap c).send.closed = true ∧
        (m1.heap c).send.outbox = (m.heap c).send.outbox := by
      intro m1 h1
      have hfr := ClientManager.act_frame m m1 a h1
      refine ⟨fun hx => ?_, (hfr.closedKept c hcl).1, (hfr.closedKept c hcl).2⟩
      rcases ClientManager.act_members m m1 a h1 c hx with h2 | h2
      · exact hc h2
      · exact hno a (List.mem_cons_self _ _) h2
    cases hact : m.act a with
    | done m1 =>
      rw [hact] at h
      obtain ⟨h1, h2, h3⟩ := hstep m1 (by rw [hact]; rfl)
      obtain ⟨k1, k2, k3⟩ := ih m1 c h1 h2 (fun b hb => hno b (List.mem_cons_of_mem _ hb)) m' h
      exact ⟨k1, k2, k3.trans h3⟩
    | blocked m1 t =>
      rw [hact] at h
      simp only [Outcome.state?, Option.some.injEq] at h
      subst h
      exact hstep m1 (by rw [hact]; rfl)
    | panic q =>
      rw [hact] at h
      simp [Outcome.state?] at h

theorem ClientManager.start_grows :
    ∀ (acts : List Action) (m m' : ClientManager), (m.start acts).state? = some m' →
      ∀ p, ∃ t, (m'.heap p).send.outbox = (m.heap p).send.outbox ++ t := by
  intro acts
  induction acts with
  | nil =>
    intro m m' h p
    simp only [ClientManager.start, Outcome.state?, Option.some.injEq] at h
    subst h
    exact ⟨[], by simp⟩
  | cons a rest ih =>
    intro m m' h p
    unfold ClientManager.start at h
    cases hact : m.act a with
    | done m1 =>
      rw [hact] at h
      obtain ⟨t1, ht1⟩ := (ClientManager.act_frame m m1 a (by rw [hact]; rfl)).grows p
      obtain ⟨t2, ht2⟩ := ih m1 m' h p
      exact ⟨t1 ++ t2, by rw [ht2, ht1]; simp⟩
    | blocked m1 t =>
      rw [hact] at h
      simp only [Outcome.state?, Option.some.injEq] at h
      subst h
      exact (ClientManager.act_frame m m1 a (by rw [hact]; rfl)).grows p
    | panic q =>
      rw [hact] at h
      simp [Outcome.state?] at h

/-! ## Waiting -/

theorem ClientManager.broadcastLoop_never_waits (message : Payload) :
    ∀ (l : List Ptr) (m m' : ClientManager) (t : Ptr),
      ClientManager.broadcastLoop message l m ≠ Outcome.blocked m' t := by
  intro l
  induction l with
  | nil =>
    intro m m' t h
    simp [ClientManager.broadcastLoop] at h
  | cons conn rest ih =>
    intro m m' t
    unfold ClientManager.broadcastLoop
    cases hcl : (m.heap conn).send.closed with
    | true =>
      rw [Chan.trySend_closed _ _ hcl]
      simp
    | false =>
      cases hrd : (m.heap conn).send.ready with
      | true =>
        rw [Chan.trySend_ready _ _ hcl hrd]
        exact ih _ m' t
      | false =>
        rw [Chan.trySend_busy _ _ hcl hrd, Chan.close_open _ hcl]
        exact ih _ m' t

theorem ClientManager.sendLoop_waits (message : Payload) (ignore : Ptr) :
    ∀ (l : List Ptr) (m : ClientManager), l.Nodup →
      (∀ c ∈ l, c ≠ ignore → (m.heap c).send.closed = false) →
      (∃ c ∈ l, c ≠ ignore ∧ (m.heap c).send.ready = false) →
      ∃ m' t, ClientManager.sendLoop message ignore l m = Outcome.blocked m' t ∧
        t ∈ l ∧ t ≠ ignore ∧ (m.heap t).send.ready = false := by
  intro l
  induction l with
  | nil =>
    intro m _ _ h
    obtain ⟨c, hc, _⟩ := h
    exact absurd hc (List.not_mem_nil c)
  | cons conn rest ih =>
    intro m hnd hopen hslow
    have hnotin : conn ∉ rest := (List.nodup_cons.1 hnd).1
    have hnd' : rest.Nodup := (List.nodup_cons.1 hnd).2
    have hrest : ∀ c ∈ rest, c ≠ conn := fun c hc he => hnotin (he ▸ hc)
    obtain ⟨s, hs, hsi, hsr⟩ := hslow
    unfold ClientManager.sendLoop
    by_cases hci : conn = ignore
    · simp only [hci, ne_eq, not_true_eq_false, if_false]
      have hsrest : s ∈ rest := by
        rcases List.mem_cons.1 hs with h1 | h1
        · exact absurd (h1.trans hci) hsi
        · exact h1
      obtain ⟨m', t, h1, ht, h2, h3⟩ :=
        ih m hnd' (fun c hc => hopen c (List.mem_cons_of_mem _ hc)) ⟨s, hsrest, hsi, hsr⟩
      exact ⟨m', t, h1, List.mem_cons_of_mem _ ht, h2, h3⟩
    · simp only [ne_eq, hci, not_false_eq_true, if_true]
      have hcl := hopen conn (List.mem_cons_self _ _) hci
      cases hrd : (m.heap conn).send.ready with
      | false =>
        rw [Chan.trySend_busy _ _ hcl hrd]
        exact ⟨m, conn, rfl, List.mem_cons_self _ _, hci, hrd⟩
      | true =>
        rw [Chan.trySend_ready _ _ hcl hrd]
        have hsrest : s ∈ rest := by
          rcases List.mem_cons.1 hs with h1 | h1
          · rw [h1, hrd] at hsr; exact absurd hsr (by decide)
          · exact h1
        obtain ⟨m', t, h1, ht, h2, h3⟩ := ih { m with heap := (m.heap.setSend conn
            { outbox := (m.heap conn).send.outbox ++ [message], closed := false, ready := false }) }
          hnd' (fun c hc hne => by
            simp only [Heap.setSend_other _ _ (hrest c hc)]
            exact hopen c (List.mem_cons_of_mem _ hc) hne)
          ⟨s, hsrest, hsi, by simp only [Heap.setSend_other _ _ (hrest s hsrest)]; exact hsr⟩
        refine ⟨m', t, h1, List.mem_cons_of_mem _ ht, h2, ?_⟩
        simpa only [Heap.setSend_other _ _ (hrest t ht)] using h3

/-! ## The unregister case on a key -/

theorem ClientManager.handle_unregister_member (m : ClientManager) (conn : Ptr)
    (hin : conn ∈ m.clients) (hcl : (m.heap conn).send.closed = false) :
    m.handle (Event.unregister conn) =
      ClientManager.sendLoop disconnectedNotice conn (m.closedAndDeleted conn).clients
        (m.closedAndDeleted conn) := by
  simp only [ClientManager.handle, hin, if_true, Chan.close_open _ hcl, ClientManager.send,
    ClientManager.closedAndDeleted]

theorem ClientManager.mem_closedAndDeleted (m : ClientManager) (conn p : Ptr) :
    p ∈ (m.closedAndDeleted conn).clients ↔ p ≠ conn ∧ p ∈ m.clients := by
  unfold ClientManager.closedAndDeleted
  rw [ClientManager.mem_delete]

theorem ClientManager.closedAndDeleted_other (m : ClientManager) {conn p : Ptr} (h : p ≠ conn) :
    (m.closedAndDeleted conn).heap p = m.heap p := by
  simp [ClientManager.closedAndDeleted, ClientManager.delete, Heap.setSend_other _ _ h]

theorem ClientManager.closedAndDeleted_same (m : ClientManager) (conn : Ptr) :
    ((m.closedAndDeleted conn).heap conn).send = { (m.heap conn).send with closed := true } := by
  simp [ClientManager.closedAndDeleted, ClientManager.delete]

theorem ClientManager.unregister_removes (m m' : ClientManager) (conn : Ptr)
    (h : (m.handle (Event.unregister conn)).state? = some m') : conn ∉ m'.clients := by
  by_cases hin : conn ∈ m.clients
  · cases hcl : (m.heap conn).send.closed with
    | true =>
      simp [ClientManager.handle, hin, Chan.close_closed _ hcl, Outcome.state?] at h
    | false =>
      rw [ClientManager.handle_unregister_member m conn hin hcl] at h
      rw [(ClientManager.sendLoop_frame _ _ _ _ _ h).1, ClientManager.mem_closedAndDeleted]
      exact fun hx => hx.1 rfl
  · simp only [ClientManager.handle, hin, if_false, Outcome.state?, Option.some.injEq] at h
    subst h
    exact hin

theorem ClientManager.handle_unregister_absent (m : ClientManager) (conn : Ptr)
    (h : conn ∉ m.clients) : m.handle (Event.unregister conn) = Outcome.done m := by
  simp [ClientManager.handle, h]

theorem Client.read_frames (conn : Ptr) (id : String) (rest : List (Option String)) :
    ∀ frames : List String,
      Client.read conn id (frames.map some ++ none :: rest) =
        frames.map (fun text => Event.broadcast { Sender := id, Recipient := "", Content := text })
          ++ [Event.unregister conn, Event.unregister conn] := by
  intro frames
  induction frames with
  | nil => rfl
  | cons text more ih => simp [Client.read, ih]

/-! ## The outbound pump -/

theorem getElem?_at_length {α : Type} (a r : List α) (x : α) :
    (a ++ x :: r)[a.length]? = some x := by
  rw [List.getElem?_append_right (Nat.le_refl _)]
  simp

theorem Client.writeLoop_frames (closed : Bool) :
    ∀ payloads : List Payload,
      (Client.writeLoop payloads closed).frames =
        payloads.map Frame.text ++ (if closed then [Frame.close] else []) ∧
      (Client.writeLoop payloads closed).returned = closed := by
  intro payloads
  induction payloads with
  | nil => cases closed <;> exact ⟨rfl, rfl⟩
  | cons p rest ih =>
    simp only [Client.writeLoop, List.map_cons, List.cons_append]
    exact ⟨by rw [ih.1], ih.2⟩

theorem Client.write_frame_at (c : Client) (i : Nat) (p : Payload)
    (h : c.send.outbox[i]? = some p) : c.write.frames[i]? = some (Frame.text p) := by
  have hlt : i < c.send.outbox.length := by
    rcases Nat.lt_or_ge i c.send.outbox.length with h1 | h1
    · exact h1
    · rw [List.getElem?_eq_none h1] at h; exact absurd h (by simp)
  unfold Client.write
  rw [(Client.writeLoop_frames c.send.closed c.send.outbox).1,
    List.getElem?_append_left (by simpa using hlt), List.getElem?_map, h]
  rfl

theorem count_close_text (payloads : List Payload) :
    (payloads.map Frame.text).count Frame.close = 0 := by
  induction payloads with
  | nil => rfl
  | cons p rest ih => simpa [List.count_cons] using ih

/-! ## What a broadcast enqueues -/

theorem ClientManager.broadcastLoop_panics (message : Payload) :
    ∀ (l : List Ptr) (m : ClientManager),
      (∃ c ∈ l, (m.heap c).send.closed = true) →
      ClientManager.broadcastLoop message l m = Outcome.panic Panic.sendOnClosedChannel := by
  intro l
  induction l with
  | nil =>
    intro m h
    obtain ⟨c, hc, _⟩ := h
    exact absurd hc (List.not_mem_nil c)
  | cons conn rest ih =>
    intro m h
    obtain ⟨c, hc, hclosed⟩ := h
    unfold ClientManager.broadcastLoop
    cases hcl : (m.heap conn).send.closed with
    | true => rw [Chan.trySend_closed _ _ hcl]
    | false =>
      have hne : c ≠ conn := fun he => by
        rw [he, hcl] at hclosed
        exact absurd hclosed (by decide)
      have hrest : c ∈ rest := (List.mem_cons.1 hc).resolve_left hne
      cases hrd : (m.heap conn).send.ready with
      | true =>
        rw [Chan.trySend_ready _ _ hcl hrd]
        exact ih _ ⟨c, hrest, by simp only [Heap.setSend_other _ _ hne]; exact hclosed⟩
      | false =>
        rw [Chan.trySend_busy _ _ hcl hrd, Chan.close_open _ hcl]
        exact ih _ ⟨c, hrest, by
          simp only [ClientManager.delete, Heap.setSend_other _ _ hne]; exact hclosed⟩

theorem ClientManager.broadcastLoop_outbox (message : Payload) :
    ∀ (l : List Ptr) (m m' : ClientManager), l.Nodup →
      (ClientManager.broadcastLoop message l m).state? = some m' →
      ∀ p, (m'.heap p).send.outbox = (m.heap p).send.outbox ∨
        (p ∈ l ∧ (m'.heap p).send.outbox = (m.heap p).send.outbox ++ [message]) := by
  intro l
  induction l with
  | nil =>
    intro m m' _ h p
    simp only [ClientManager.broadcastLoop, Outcome.state?, Option.some.injEq] at h
    subst h
    exact Or.inl rfl
  | cons conn rest ih =>
    intro m m' hnd h p
    have hnotin : conn ∉ rest := (List.nodup_cons.1 hnd).1
    have hnd' : rest.Nodup := (List.nodup_cons.1 hnd).2
    unfold ClientManager.broadcastLoop at h
    cases hcl : (m.heap conn).send.closed with
    | true =>
      rw [Chan.trySend_closed _ _ hcl] at h
      simp [Outcome.state?] at h
    | false =>
      cases hrd : (m.heap conn).send.ready with
      | true =>
        rw [Chan.trySend_ready _ _ hcl hrd] at h
        have hp := ih _ m' hnd' h p
        by_cases hpc : p = conn
        · subst hpc
          simp only [Heap.setSend_same] at hp
          rcases hp with hp | ⟨hp, _⟩
          · exact Or.inr ⟨List.mem_cons_self _ _, hp⟩
          · exact absurd hp hnotin
        · simp only [Heap.setSend_other _ _ hpc] at hp
          rcases hp with hp | ⟨hp, hq⟩
          · exact Or.inl hp
          · exact Or.inr ⟨List.mem_cons_of_mem _ hp, hq⟩
      | false =>
        rw [Chan.trySend_busy _ _ hcl hrd, Chan.close_open _ hcl] at h
        have hp := ih _ m' hnd' h p
        by_cases hpc : p = conn
        · subst hpc
          simp only [ClientManager.delete, Heap.setSend_same] at hp
          rcases hp with hp | ⟨hp, _⟩
          · exact Or.inl hp
          · exact absurd hp hnotin
        · simp only [ClientManager.delete, Heap.setSend_other _ _ hpc] at hp
          rcases hp with hp | ⟨hp, hq⟩
          · exact Or.inl hp
          · exact Or.inr ⟨List.mem_cons_of_mem _ hp, hq⟩

theorem ClientManager.broadcast_received (m m' : ClientManager) (message : Payload) (c : Ptr)
    (h : m.handle (Event.broadcast message) = Outcome.done m')
    (hne : (m'.heap c).send.outbox ≠ (m.heap c).send.outbox) :
    (m'.heap c).send.outbox = (m.heap c).send.outbox ++ [message] := by
  rcases ClientManager.broadcastLoop_outbox message m.clients m m' m.nodup
    (by simp only [ClientManager.handle] at h; rw [h]; rfl) c with h1 | h1
  · exact absurd h1 hne
  · exact h1.2

/-! ## Where the loop waits -/

/-- Where the hub loop waits, in a hub whose keys all have open channels: the
broadcast case never does; the register case, and the unregister case on a key,
do exactly when some other key cannot accept a payload at once. -/
theorem ClientManager.handle_waits (m : ClientManager) (hopen : m.ActiveOpen) :
    (∀ message, ∃ m', m.handle (Event.broadcast message) = Outcome.done m') ∧
    (∀ conn, (∀ c ∈ m.clients, c ≠ conn → (m.heap c).send.ready = true) →
      (∃ m', m.handle (Event.register conn) = Outcome.done m') ∧
      (∃ m', m.handle (Event.unregister conn) = Outcome.done m')) ∧
    (∀ conn, (∃ c ∈ m.clients, c ≠ conn ∧ (m.heap c).send.ready = false) →
      (∃ m' t, m.handle (Event.register conn) = Outcome.blocked m' t ∧
        t ≠ conn ∧ (m.heap t).send.ready = false) ∧
      (conn ∈ m.clients → ∃ m' t, m.handle (Event.unregister conn) = Outcome.blocked m' t ∧
        t ≠ conn ∧ (m.heap t).send.ready = false)) := by
  refine ⟨fun message => ?_, fun conn hready => ⟨?_, ?_⟩, fun conn hslow => ⟨?_, fun hin => ?_⟩⟩
  · obtain ⟨m', hm', _⟩ := ClientManager.broadcastLoop_done message m.clients m m.nodup hopen
    exact ⟨m', hm'⟩
  · obtain ⟨m', hm', _⟩ := ClientManager.sendLoop_done connectedNotice conn
      (m.insert conn).clients (m.insert conn) (m.insert conn).nodup (fun c hc hne => by
        rcases (ClientManager.mem_insert m conn c).1 hc with h1 | h1
        · exact absurd h1 hne
        · exact ⟨hopen c h1, hready c h1 hne⟩)
    exact ⟨m', hm'⟩
  · by_cases hin : conn ∈ m.clients
    · rw [ClientManager.handle_unregister_member m conn hin (hopen conn hin)]
      obtain ⟨m', hm', _⟩ := ClientManager.sendLoop_done disconnectedNotice conn
        (m.closedAndDeleted conn).clients (m.closedAndDeleted conn)
        (m.closedAndDeleted conn).nodup (fun c hc hne => by
          have hc' := ((ClientManager.mem_closedAndDeleted m conn c).1 hc).2
          rw [ClientManager.closedAndDeleted_other m hne]
          exact ⟨hopen c hc', hready c hc' hne⟩)
      exact ⟨m', hm'⟩
    · exact ⟨m, by simp [ClientManager.handle, hin]⟩
  · obtain ⟨s, hs, hsc, hsr⟩ := hslow
    obtain ⟨m', t, h1, _, h2, h3⟩ := ClientManager.sendLoop_waits connectedNotice conn
      (m.insert conn).clients (m.insert conn) (m.insert conn).nodup (fun c hc hne => by
        rcases (ClientManager.mem_insert m conn c).1 hc with h1 | h1
        · exact absurd h1 hne
        · exact hopen c h1)
      ⟨s, (ClientManager.mem_insert m conn s).2 (Or.inr hs), hsc, hsr⟩
    exact ⟨m', t, h1, h2, h3⟩
  · obtain ⟨s, hs, hsc, hsr⟩ := hslow
    rw [ClientManager.handle_unregister_member m conn hin (hopen conn hin)]
    obtain ⟨m', t, h1, _, h2, h3⟩ := ClientManager.sendLoop_waits disconnectedNotice conn
      (m.closedAndDeleted conn).clients (m.closedAndDeleted conn)
      (m.closedAndDeleted conn).nodup (fun c hc hne => by
        have hc' := ((ClientManager.mem_closedAndDeleted m conn c).1 hc).2
        rw [ClientManager.closedAndDeleted_other m hne]
        exact hopen c hc')
      ⟨s, (ClientManager.mem_closedAndDeleted m conn s).2 ⟨hsc, hs⟩, hsc, by
        rw [ClientManager.closedAndDeleted_other m hsc]; exact hsr⟩
    refine ⟨m', t, h1, h2, ?_⟩
    rw [ClientManager.closedAndDeleted_other m h2] at h3
    exact h3

/-! ## The claims -/

/-- C1: the code at the failing input. In the hub with the keys 1 and 2, both
with open channels, where the pump of client 1 is not at its receive (a full
mailbox), the register case for a new connection 3 and the unregister case for
the key 2 both end up waiting in the blocking send of `send` to client 1, while
the broadcast case on the same hub runs to its end without waiting and evicts
client 1. -/
theorem notice_waits_for_slow_client :
    slowHub.ActiveOpen ∧
    slowHub.handle (Event.register 3) = Outcome.blocked (slowHub.insert 3) 1 ∧
    (∃ m', slowHub.handle (Event.unregister 2) = Outcome.blocked m' 1) ∧
    ∃ m', slowHub.handle (Event.broadcast hiFromA) = Outcome.done m' ∧
      1 ∉ m'.clients ∧ (m'.heap 2).send.outbox = [hiFromA] :=
  ⟨by unfold ClientManager.ActiveOpen; decide, rfl, ⟨_, rfl⟩, ⟨_, rfl, by decide, rfl⟩⟩

/-- C2, counterexample: A, B and C register in order, the inbound pump of A
reads the frame "hi" and submits the envelope, and the broadcast case appends
the envelope to the outbox of A itself (as it does for B and C). -/
theorem origin_gets_own_broadcast :
    ∃ m m', (ClientManager.empty idleHeap).start registerABC = Outcome.done m ∧
      (1 ∈ m.clients ∧ 2 ∈ m.clients ∧ 3 ∈ m.clients) ∧
      Client.read 1 (m.heap 1).id [some "hi"] = [Event.broadcast hiFromA] ∧
      m.handle (Event.broadcast hiFromA) = Outcome.done m' ∧
      (m'.heap 1).send.outbox = (m.heap 1).send.outbox ++ [hiFromA] ∧
      (m'.heap 2).send.outbox = (m.heap 2).send.outbox ++ [hiFromA] ∧
      (m'.heap 3).send.outbox = (m.heap 3).send.outbox ++ [hiFromA] ∧
      (m'.heap 1).send.outbox ≠ (m.heap 1).send.outbox :=
  ⟨_, _, rfl, by decide, rfl, rfl, rfl, rfl, rfl, by decide⟩

/-- C2, amended: the broadcast case treats the connection that submitted the
message like every other key. When the origin is a key with an open channel and
its mailbox can accept the message, exactly one copy is appended to the
origin's own outbox and it stays a key; when its mailbox is full, its outbox
is left as it was and closed, and the origin is removed from the keys. -/
theorem broadcast_includes_origin (m : ClientManager) (message : Payload) (origin : Ptr)
    (hopen : m.ActiveOpen) (hin : origin ∈ m.clients) :
    ∃ m', m.handle (Event.broadcast message) = Outcome.done m' ∧
      ((m.heap origin).send.ready = true →
        (m'.heap origin).send.outbox = (m.heap origin).send.outbox ++ [message] ∧
        (m'.heap origin).send.closed = false ∧ origin ∈ m'.clients) ∧
      ((m.heap origin).send.ready = false →
        (m'.heap origin).send.outbox = (m.heap origin).send.outbox ∧
        (m'.heap origin).send.closed = true ∧ origin ∉ m'.clients) := by
  obtain ⟨m', hm', hmem, hsend⟩ :=
    ClientManager.broadcastLoop_done message m.clients m m.nodup hopen
  refine ⟨m', hm', fun hr => ?_, fun hr => ?_⟩
  · rw [(hsend origin hin).1 hr]
    exact ⟨rfl, rfl, (hmem origin).2 ⟨hin, fun _ => hr⟩⟩
  · rw [(hsend origin hin).2 hr]
    refine ⟨rfl, rfl, fun hx => ?_⟩
    have := ((hmem origin).1 hx).2 hin
    rw [hr] at this
    exact absurd this (by decide)

/-- C2, witness: the amended statement at the hub of A, B and C with origin A. -/
theorem broadcast_includes_origin_witness :
    hubABC.ActiveOpen ∧ 1 ∈ hubABC.clients ∧
    ∃ m', hubABC.handle (Event.broadcast hiFromA) = Outcome.done m' ∧
      ((hubABC.heap 1).send.ready = true →
        (m'.heap 1).send.outbox = (hubABC.heap 1).send.outbox ++ [hiFromA] ∧
        (m'.heap 1).send.closed = false ∧ 1 ∈ m'.clients) ∧
      ((hubABC.heap 1).send.ready = false →
        (m'.heap 1).send.outbox = (hubABC.heap 1).send.outbox ∧
        (m'.heap 1).send.closed = true ∧ 1 ∉ m'.clients) :=
  ⟨by unfold ClientManager.ActiveOpen; decide, by decide,
    broadcast_includes_origin hubABC hiFromA 1 (by unfold ClientManager.ActiveOpen; decide)
      (by decide)⟩

/-- C3, counterexample. First: connection 2 registers, connection 1 registers,
is unregistered and registers again, so that 1 is a key with a closed channel
and 2 is a key whose mailbox can accept a message; the broadcast case then
panics with a send on a closed channel and 2 gets no copy. Second: in the hub
of A, B and C the broadcast of A's envelope also puts a copy on the outbox of
A, which is no target. -/
theorem broadcast_panics_on_revived_key :
    (∃ m, (ClientManager.empty idleHeap).start reviveOne = Outcome.done m ∧
      2 ∈ m.clients ∧ (m.heap 2).send.closed = false ∧ (m.heap 2).send.ready = true ∧
      m.handle (Event.broadcast hiFromA) = Outcome.panic Panic.sendOnClosedChannel) ∧
    ∃ m', hubABC.handle (Event.broadcast hiFromA) = Outcome.done m' ∧
      (hubABC.heap 1).id = hiFromA.Sender ∧
      (m'.heap 1).send.outbox = (hubABC.heap 1).send.outbox ++ [hiFromA] :=
  ⟨⟨_, rfl, by decide, rfl, rfl, rfl⟩, ⟨_, rfl, rfl, rfl⟩⟩

/-- C3, amended: postcondition of the broadcast case. When every key has an
open channel the step runs to its end, and over all keys, the origin
included: a key whose mailbox can accept the message gets exactly one copy
appended, keeps an open channel and stays a key; a key whose mailbox is full
gets nothing, has its channel closed and is no longer a key; a connection that
is no key is left as it was and does not become one; so the outbox of every
connection is unchanged or extended by that one message, and no notice or other
payload is enqueued. When some key has a closed channel the step panics with a
send on a closed channel. -/
theorem broadcast_postcondition (m : ClientManager) (message : Payload) :
    (m.ActiveOpen →
      ∃ m', m.handle (Event.broadcast message) = Outcome.done m' ∧
        (∀ c ∈ m.clients,
          ((m.heap c).send.ready = true →
            (m'.heap c).send.outbox = (m.heap c).send.outbox ++ [message] ∧
            (m'.heap c).send.closed = false ∧ c ∈ m'.clients) ∧
          ((m.heap c).send.ready = false →
            (m'.heap c).send.outbox = (m.heap c).send.outbox ∧
            (m'.heap c).send.closed = true ∧ c ∉ m'.clients)) ∧
        (∀ p, p ∉ m.clients → m'.heap p = m.heap p ∧ p ∉ m'.clients) ∧
        (∀ p, (m'.heap p).send.outbox = (m.heap p).send.outbox ∨
          (m'.heap p).send.outbox = (m.heap p).send.outbox ++ [message])) ∧
    (¬ m.ActiveOpen →
      m.handle (Event.broadcast message) = Outcome.panic Panic.sendOnClosedChannel) := by
  refine ⟨fun hopen => ?_, fun hnot => ?_⟩
  · obtain ⟨m', hm', hmem, hsend⟩ :=
      ClientManager.broadcastLoop_done message m.clients m m.nodup hopen
    have hfr := ClientManager.broadcastLoop_frame message m.clients m m' (by rw [hm']; rfl)
    refine ⟨m', hm', fun c hin => ⟨fun hr => ?_, fun hr => ?_⟩, fun p hp => ?_, fun p => ?_⟩
    · rw [(hsend c hin).1 hr]
      exact ⟨rfl, rfl, (hmem c).2 ⟨hin, fun _ => hr⟩⟩
    · rw [(hsend c hin).2 hr]
      refine ⟨rfl, rfl, fun hx => ?_⟩
      have := ((hmem c).1 hx).2 hin
      rw [hr] at this
      exact absurd this (by decide)
    · exact ⟨(hfr.2 p).2.1 (Or.inl hp), fun hx => hp ((hmem p).1 hx).1⟩
    · by_cases hp : p ∈ m.clients
      · cases hr : (m.heap p).send.ready with
        | true => rw [(hsend p hp).1 hr]; exact Or.inr rfl
        | false => rw [(hsend p hp).2 hr]; exact Or.inl rfl
      · rw [(hfr.2 p).2.1 (Or.inl hp)]; exact Or.inl rfl
  · have hex : ∃ c ∈ m.clients, (m.heap c).send.closed = true := by
      unfold ClientManager.ActiveOpen at hnot
      by_contra hall
      refine hnot (fun c hc => ?_)
      cases hcl : (m.heap c).send.closed with
      | false => rfl
      | true => exact absurd ⟨c, hc, hcl⟩ hall
    exact ClientManager.broadcastLoop_panics message m.clients m hex

/-- C3, witness: the postcondition at the slow hub, where key 1 has a full
mailbox and key 2 has not. -/
theorem broadcast_postcondition_witness :
    slowHub.ActiveOpen ∧
    ∃ m', slowHub.handle (Event.broadcast hiFromA) = Outcome.done m' ∧
      (∀ c ∈ slowHub.clients,
        ((slowHub.heap c).send.ready = true →
          (m'.heap c).send.outbox = (slowHub.heap c).send.outbox ++ [hiFromA] ∧
          (m'.heap c).send.closed = false ∧ c ∈ m'.clients) ∧
        ((slowHub.heap c).send.ready = false →
          (m'.heap c).send.outbox = (slowHub.heap c).send.outbox ∧
          (m'.heap c).send.closed = true ∧ c ∉ m'.clients)) ∧
      (∀ p, p ∉ slowHub.clients → m'.heap p = slowHub.heap p ∧ p ∉ m'.clients) ∧
      (∀ p, (m'.heap p).send.outbox = (slowHub.heap p).send.outbox ∨
        (m'.heap p).send.outbox = (slowHub.heap p).send.outbox ++ [hiFromA]) :=
  ⟨by unfold ClientManager.ActiveOpen; decide,
    (broadcast_postcondition slowHub hiFromA).1 (by unfold ClientManager.ActiveOpen; decide)⟩

/-- C4: the unregister case is a no-op on a connection that is not a key: the
hub state (keys, every outbox, every channel's open or closed status) is
returned as it was. Hence processing unregister twice for the same connection
gives the same outcome as processing it once, and that is what the inbound
pump submits on a read error: after the broadcasts of the frames it read, one
unregister in the error branch and one in the deferred function. -/
theorem unregister_idempotent (m : ClientManager) (conn : Ptr) :
    (conn ∉ m.clients → m.handle (Event.unregister conn) = Outcome.done m) ∧
    m.start [Action.hub (Event.unregister conn), Action.hub (Event.unregister conn)] =
      m.start [Action.hub (Event.unregister conn)] ∧
    (∀ (id : String) (frames : List String) (rest : List (Option String)),
      Client.read conn id (frames.map some ++ none :: rest) =
        frames.map (fun text => Event.broadcast { Sender := id, Recipient := "", Content := text })
          ++ [Event.unregister conn, Event.unregister conn]) := by
  refine ⟨ClientManager.handle_unregister_absent m conn, ?_,
    fun id frames rest => Client.read_frames conn id rest frames⟩
  simp only [ClientManager.start, ClientManager.act]
  cases h : m.handle (Event.unregister conn) with
  | done m1 =>
    have hout := ClientManager.unregister_removes m m1 conn (by rw [h]; rfl)
    simp only [ClientManager.handle_unregister_absent m1 conn hout]
  | blocked m1 t => rfl
  | panic q => rfl

/-- C4, witness: connection 7 is not a key of the hub of A, B and C, and
unregistering it returns that hub. -/
theorem unregister_idempotent_witness :
    7 ∉ hubABC.clients ∧ hubABC.handle (Event.unregister 7) = Outcome.done hubABC :=
  ⟨by decide, (unregister_idempotent hubABC 7).1 (by decide)⟩

/-- C5: outbox-closure invariant. Start from the empty hub with every channel
open and run any sequence of actions in which each connection is registered at
most once. Then the run never panics (no close of a closed channel, no send on
a closed channel); in every state reached every key has an open channel; and
in any further iteration of the loop, a channel that becomes closed belonged to
a key before the iteration and to none after it, while a channel that was
closed already stays closed with the same outbox. -/
theorem outbox_closure_invariant (heap : Heap)
    (hfresh : ∀ c, (heap c).send.closed = false) (acts : List Action)
    (hreg : (registrations acts).Nodup) :
    (∀ q, (ClientManager.empty heap).start acts ≠ Outcome.panic q) ∧
    (∀ m, ((ClientManager.empty heap).start acts).state? = some m → m.ActiveOpen) ∧
    (∀ m ev m', ((ClientManager.empty heap).start acts) = Outcome.done m →
      (m.handle ev).state? = some m' →
      (∀ q, m.handle ev ≠ Outcome.panic q) ∧
      (∀ c, (m'.heap c).send.closed = true → (m.heap c).send.closed = false →
        c ∈ m.clients ∧ c ∉ m'.clients) ∧
      (∀ c, (m.heap c).send.closed = true →
        (m'.heap c).send.closed = true ∧
        (m'.heap c).send.outbox = (m.heap c).send.outbox)) := by
  have hT : (ClientManager.empty heap).Tracked [] :=
    ⟨fun c hc => absurd hc (List.not_mem_nil c), fun c _ => hfresh c,
      fun c hc => absurd hc (List.not_mem_nil c)⟩
  obtain ⟨h1, h2⟩ := ClientManager.start_tracked acts (ClientManager.empty heap) [] hT hreg
    (fun c _ hx => absurd hx (List.not_mem_nil c))
  refine ⟨h1, h2, fun m ev m' hm hstep => ?_⟩
  have hfr := ClientManager.handle_frame m m' ev hstep
  exact ⟨ClientManager.handle_no_panic m ev (h2 m (by rw [hm]; rfl)),
    hfr.closes, hfr.closedKept⟩

/-- C5, witness: the invariant for the run in which A, B and C register. -/
theorem outbox_closure_invariant_witness :
    (∀ c, (idleHeap c).send.closed = false) ∧ (registrations registerABC).Nodup ∧
    ∀ m, ((ClientManager.empty idleHeap).start registerABC).state? = some m → m.ActiveOpen :=
  ⟨fun _ => rfl, by decide,
    (outbox_closure_invariant idleHeap (fun _ => rfl) registerABC (by decide)).2.1⟩

/-- C6, counterexample: connection 2 registers, connection 1 registers, is
unregistered and registers again. Then 1 is a key and the only other key, 2,
can accept a payload, but the channel of 1 is closed already, and the
unregister case for 1 panics with a close of a closed channel. -/
theorem unregister_panics_on_revived_key :
    ∃ m, (ClientManager.empty idleHeap).start reviveOne = Outcome.done m ∧
      1 ∈ m.clients ∧
      (∀ c ∈ m.clients, c ≠ 1 →
        (m.heap c).send.closed = false ∧ (m.heap c).send.ready = true) ∧
      (m.heap 1).send.closed = true ∧
      m.handle (Event.unregister 1) = Outcome.panic Panic.closeOfClosedChannel :=
  ⟨_, rfl, by decide, by decide, rfl, rfl⟩

/-- C6, amended: postcondition of the unregister case on a key `conn`, when
every other key can accept a payload at once (its channel is open and its pump
at the receive). If the channel of `conn` is open, the step runs to its end;
the channel of `conn` is closed and nothing is enqueued on it; the keys are the
previous keys without `conn`; every remaining key gets exactly one notice
appended, the disconnect notice, which has no sender; and no other outbox
changes. If the channel of `conn` is closed already, the step panics with a
close of a closed channel. -/
theorem unregister_postcondition (m : ClientManager) (conn : Ptr)
    (hin : conn ∈ m.clients)
    (hready : ∀ c ∈ m.clients, c ≠ conn →
      (m.heap c).send.closed = false ∧ (m.heap c).send.ready = true) :
    ((m.heap conn).send.closed = false →
      ∃ m', m.handle (Event.unregister conn) = Outcome.done m' ∧
        (m'.heap conn).send.closed = true ∧
        (m'.heap conn).send.outbox = (m.heap conn).send.outbox ∧
        (∀ p, p ∈ m'.clients ↔ p ∈ m.clients ∧ p ≠ conn) ∧
        (∀ p ∈ m'.clients,
          (m'.heap p).send.outbox = (m.heap p).send.outbox ++ [disconnectedNotice] ∧
          (m'.heap p).send.closed = false) ∧
        (∀ p, p ∉ m'.clients → (m'.heap p).send.outbox = (m.heap p).send.outbox) ∧
        disconnectedNotice.Sender = "") ∧
    ((m.heap conn).send.closed = true →
      m.handle (Event.unregister conn) = Outcome.panic Panic.closeOfClosedChannel) := by
  refine ⟨fun hopen => ?_, fun hclosed => ?_⟩
  · rw [ClientManager.handle_unregister_member m conn hin hopen]
    obtain ⟨m', hm', hsent⟩ := ClientManager.sendLoop_done disconnectedNotice conn
      (m.closedAndDeleted conn).clients (m.closedAndDeleted conn)
      (m.closedAndDeleted conn).nodup (fun c hc hne => by
        have hc' := ((ClientManager.mem_closedAndDeleted m conn c).1 hc).2
        rw [ClientManager.closedAndDeleted_other m hne]
        exact hready c hc' hne)
    obtain ⟨hcl, hfr⟩ := ClientManager.sendLoop_frame disconnectedNotice conn _ _ m'
      (by rw [hm']; rfl)
    have hconn : (m'.heap conn).send = { (m.heap conn).send with closed := true } := by
      rw [(hfr conn).2.2 (Or.inr (Or.inl rfl)), ClientManager.closedAndDeleted_same]
    have hmem : ∀ p, p ∈ m'.clients ↔ p ∈ m.clients ∧ p ≠ conn := by
      intro p
      rw [hcl, ClientManager.mem_closedAndDeleted]
      exact And.comm
    refine ⟨m', hm', by rw [hconn], by rw [hconn], hmem, fun p hp => ?_, fun p hp => ?_, rfl⟩
    · have hp' := (hmem p).1 hp
      rw [hsent p ((ClientManager.mem_closedAndDeleted m conn p).2 ⟨hp'.2, hp'.1⟩) hp'.2,
        ClientManager.closedAndDeleted_other m hp'.2]
      exact ⟨rfl, rfl⟩
    · by_cases hpc : p = conn
      · subst hpc; rw [hconn]
      · have : p ∉ (m.closedAndDeleted conn).clients := by rw [← hcl]; exact hp
        rw [(hfr p).2.2 (Or.inl this), ClientManager.closedAndDeleted_other m hpc]
  · simp only [ClientManager.handle, hin, if_true, Chan.close_closed _ hclosed]

/-- C6, witness: B (key 2) is unregistered from the hub of A, B and C; A and C
each get one disconnect notice and the keys are A and C. -/
theorem unregister_postcondition_witness :
    2 ∈ hubABC.clients ∧
    (∀ c ∈ hubABC.clients, c ≠ 2 →
      (hubABC.heap c).send.closed = false ∧ (hubABC.heap c).send.ready = true) ∧
    (hubABC.heap 2).send.closed = false ∧
    ∃ m', hubABC.handle (Event.unregister 2) = Outcome.done m' ∧
      (m'.heap 2).send.closed = true ∧
      (m'.heap 2).send.outbox = (hubABC.heap 2).send.outbox ∧
      (∀ p, p ∈ m'.clients ↔ p ∈ hubABC.clients ∧ p ≠ 2) ∧
      (∀ p ∈ m'.clients,
        (m'.heap p).send.outbox = (hubABC.heap p).send.outbox ++ [disconnectedNotice] ∧
        (m'.heap p).send.closed = false) ∧
      (∀ p, p ∉ m'.clients → (m'.heap p).send.outbox = (hubABC.heap p).send.outbox) ∧
      disconnectedNotice.Sender = "" :=
  ⟨by decide, by decide, rfl,
    (unregister_postcondition hubABC 2 (by decide) (by decide)).1 rfl⟩

/-- C7: postcondition of the register case for a connection that is not a key,
in a hub whose keys all have open channels and can all accept a payload at
once. The step runs to its end; the keys are the previous keys plus `conn`;
the client record of `conn` (its outbox included) is untouched; every previous
key gets exactly one notice appended, the connect notice, which has no sender;
no other outbox changes; and the number of payloads enqueued over all keys is
the number of keys after the insertion minus one. -/
theorem register_postcondition (m : ClientManager) (conn : Ptr)
    (hopen : m.ActiveOpen) (hnot : conn ∉ m.clients)
    (hready : ∀ c ∈ m.clients, (m.heap c).send.ready = true) :
    ∃ m', m.handle (Event.register conn) = Outcome.done m' ∧
      (∀ p, p ∈ m'.clients ↔ p = conn ∨ p ∈ m.clients) ∧
      m'.heap conn = m.heap conn ∧
      (∀ p ∈ m.clients,
        (m'.heap p).send.outbox = (m.heap p).send.outbox ++ [connectedNotice]) ∧
      (∀ p, p ∉ m.clients → (m'.heap p).send.outbox = (m.heap p).send.outbox) ∧
      connectedNotice.Sender = "" ∧
      (m'.clients.map (fun p =>
        (m'.heap p).send.outbox.length - (m.heap p).send.outbox.length)).sum =
        m'.clients.length - 1 := by
  obtain ⟨m', hm', hsent⟩ := ClientManager.sendLoop_done connectedNotice conn
    (m.insert conn).clients (m.insert conn) (m.insert conn).nodup (fun c hc hne => by
      rcases (ClientManager.mem_insert m conn c).1 hc with h1 | h1
      · exact absurd h1 hne
      · exact ⟨hopen c h1, hready c h1⟩)
  obtain ⟨hcl, hfr⟩ := ClientManager.sendLoop_frame connectedNotice conn _ _ m'
    (by rw [hm']; rfl)
  have hheap : (m.insert conn).heap = m.heap := rfl
  have hconn : m'.heap conn = m.heap conn := by
    rw [(hfr conn).2.2 (Or.inr (Or.inl rfl)), hheap]
  have hold : ∀ p ∈ m.clients,
      (m'.heap p).send.outbox = (m.heap p).send.outbox ++ [connectedNotice] := by
    intro p hp
    have hpc : p ≠ conn := fun he => hnot (he ▸ hp)
    rw [hsent p ((ClientManager.mem_insert m conn p).2 (Or.inr hp)) hpc, hheap]
  have hkeys : m'.clients = conn :: m.clients := by
    rw [hcl]
    exact List.insert_of_not_mem hnot
  refine ⟨m', hm', fun p => ?_, hconn, hold, fun p hp => ?_, rfl, ?_⟩
  · rw [hcl]; exact ClientManager.mem_insert m conn p
  · by_cases hpc : p = conn
    · subst hpc; rw [hconn]
    · have : p ∉ (m.insert conn).clients := by
        rw [ClientManager.mem_insert]; exact fun hx => hx.elim hpc hp
      rw [(hfr p).2.2 (Or.inl this), hheap]
  · rw [hkeys]
    have hone : m.clients.map (fun p =>
        (m'.heap p).send.outbox.length - (m.heap p).send.outbox.length) =
        m.clients.map (fun _ => 1) := by
      refine List.map_congr_left (fun p hp => ?_)
      rw [hold p hp]
      simp
    simp [hconn, hone]

/-- C7, witness: a connection 4 registers with the hub of A, B and C. -/
theorem register_postcondition_witness :
    hubABC.ActiveOpen ∧ 4 ∉ hubABC.clients ∧
    (∀ c ∈ hubABC.clients, (hubABC.heap c).send.ready = true) ∧
    ∃ m', hubABC.handle (Event.register 4) = Outcome.done m' ∧
      (∀ p, p ∈ m'.clients ↔ p = 4 ∨ p ∈ hubABC.clients) ∧
      m'.heap 4 = hubABC.heap 4 ∧
      (∀ p ∈ hubABC.clients,
        (m'.heap p).send.outbox = (hubABC.heap p).send.outbox ++ [connectedNotice]) ∧
      (∀ p, p ∉ hubABC.clients → (m'.heap p).send.outbox = (hubABC.heap p).send.outbox) ∧
      connectedNotice.Sender = "" ∧
      (m'.clients.map (fun p =>
        (m'.heap p).send.outbox.length - (hubABC.heap p).send.outbox.length)).sum =
        m'.clients.length - 1 :=
  ⟨by unfold ClientManager.ActiveOpen; decide, by decide, by decide,
    register_postcondition hubABC 4 (by unfold ClientManager.ActiveOpen; decide)
      (by decide) (by decide)⟩

/-- C8: broadcasts reach a recipient in the order in which the loop processed
them. Take any hub state, a broadcast of `first`, any actions that run to
their end, a broadcast of `second`, and any further actions. For a connection
that received both (each of the two steps changed its outbox), each step
appended exactly its message, `first` sits in the final outbox at an earlier
position than `second`, and the outbound pump writes the text frame of `first`
at that earlier position and the text frame of `second` at the later one. -/
theorem broadcast_fifo (m1 m2 m3 m4 m5 : ClientManager) (first second : Payload)
    (between later : List Action) (c : Ptr)
    (h1 : m1.handle (Event.broadcast first) = Outcome.done m2)
    (h2 : m2.start between = Outcome.done m3)
    (h3 : m3.handle (Event.broadcast second) = Outcome.done m4)
    (h4 : (m4.start later).state? = some m5)
    (hg1 : (m2.heap c).send.outbox ≠ (m1.heap c).send.outbox)
    (hg2 : (m4.heap c).send.outbox ≠ (m3.heap c).send.outbox) :
    (m2.heap c).send.outbox = (m1.heap c).send.outbox ++ [first] ∧
    (m4.heap c).send.outbox = (m3.heap c).send.outbox ++ [second] ∧
    (m1.heap c).send.outbox.length < (m3.heap c).send.outbox.length ∧
    (m5.heap c).send.outbox[(m1.heap c).send.outbox.length]? = some first ∧
    (m5.heap c).send.outbox[(m3.heap c).send.outbox.length]? = some second ∧
    (m5.heap c).write.frames[(m1.heap c).send.outbox.length]? = some (Frame.text first) ∧
    (m5.heap c).write.frames[(m3.heap c).send.outbox.length]? = some (Frame.text second) := by
  have hr1 := ClientManager.broadcast_received m1 m2 first c h1 hg1
  have hr2 := ClientManager.broadcast_received m3 m4 second c h3 hg2
  obtain ⟨t, ht⟩ := ClientManager.start_grows between m2 m3 (by rw [h2]; rfl) c
  obtain ⟨u, hu⟩ := ClientManager.start_grows later m4 m5 h4 c
  have hlen : (m1.heap c).send.outbox.length < (m3.heap c).send.outbox.length := by
    rw [ht, hr1]; simp
  have hfirst : (m5.heap c).send.outbox[(m1.heap c).send.outbox.length]? = some first := by
    rw [hu, hr2, ht, hr1]
    simp only [List.append_assoc, List.singleton_append]
    exact getElem?_at_length _ _ _
  have hsecond : (m5.heap c).send.outbox[(m3.heap c).send.outbox.length]? = some second := by
    rw [hu, hr2]
    simp only [List.append_assoc, List.singleton_append]
    exact getElem?_at_length _ _ _
  exact ⟨hr1, hr2, hlen, hfirst, hsecond, Client.write_frame_at _ _ _ hfirst,
    Client.write_frame_at _ _ _ hsecond⟩

/-- C8, witness: in the hub of A, B and C, "hi" and then "ho" are broadcast,
with the pump of B back at its receive in between; B holds "hi" before "ho". -/
theorem broadcast_fifo_witness :
    ∃ m2 m3 m4 m5,
      hubABC.handle (Event.broadcast hiFromA) = Outcome.done m2 ∧
      m2.start [Action.writerReady 2] = Outcome.done m3 ∧
      m3.handle (Event.broadcast hoFromA) = Outcome.done m4 ∧
      (m4.start []).state? = some m5 ∧
      (m2.heap 2).send.outbox ≠ (hubABC.heap 2).send.outbox ∧
      (m4.heap 2).send.outbox ≠ (m3.heap 2).send.outbox ∧
      ((m2.heap 2).send.outbox = (hubABC.heap 2).send.outbox ++ [hiFromA] ∧
      (m4.heap 2).send.outbox = (m3.heap 2).send.outbox ++ [hoFromA] ∧
      (hubABC.heap 2).send.outbox.length < (m3.heap 2).send.outbox.length ∧
      (m5.heap 2).send.outbox[(hubABC.heap 2).send.outbox.length]? = some hiFromA ∧
      (m5.heap 2).send.outbox[(m3.heap 2).send.outbox.length]? = some hoFromA ∧
      (m5.heap 2).write.frames[(hubABC.heap 2).send.outbox.length]? =
        some (Frame.text hiFromA) ∧
      (m5.heap 2).write.frames[(m3.heap 2).send.outbox.length]? =
        some (Frame.text hoFromA)) :=
  ⟨_, _, _, _, rfl, rfl, rfl, rfl, by decide, by decide,
    broadcast_fifo hubABC _ _ _ _ hiFromA hoFromA [Action.writerReady 2] [] 2
      rfl rfl rfl rfl (by decide) (by decide)⟩

/-- C9, counterexample: connection 1 registers with the empty hub and is
unregistered, so its channel is closed and it is no key; a register event for
the same connection then makes it a key again, with its channel still closed. -/
theorem register_revives_closed_connection :
    ∃ m m', (ClientManager.empty idleHeap).start
        [Action.hub (Event.register 1), Action.hub (Event.unregister 1)] = Outcome.done m ∧
      1 ∉ m.clients ∧ (m.heap 1).send.closed = true ∧
      m.handle (Event.register 1) = Outcome.done m' ∧
      1 ∈ m'.clients ∧ (m'.heap 1).send.closed = true :=
  ⟨_, _, rfl, by decide, rfl, rfl, by decide, rfl⟩

/-- C9, amended: a connection whose channel is closed and that is not a key
stays so through every sequence of actions that holds no register event for
that same connection: in every state reached it is not a key, its channel is
closed and its outbox is what it was. The register case itself has no guard: a
register event for that connection does make it a key again. -/
theorem closed_connection_stays_out (m : ClientManager) (acts : List Action) (c : Ptr)
    (hout : c ∉ m.clients) (hclosed : (m.heap c).send.closed = true)
    (hno : ∀ a ∈ acts, a ≠ Action.hub (Event.register c)) :
    ∀ m', (m.start acts).state? = some m' →
      c ∉ m'.clients ∧ (m'.heap c).send.closed = true ∧
      (m'.heap c).send.outbox = (m.heap c).send.outbox :=
  ClientManager.start_terminal acts m c hout hclosed hno

/-- C9, witness: after B is unregistered from the hub of A, B and C, a
broadcast, an unregister of B and a register of another connection leave B
out. -/
theorem closed_connection_stays_out_witness :
    ∃ m, hubABC.handle (Event.unregister 2) = Outcome.done m ∧
      2 ∉ m.clients ∧ (m.heap 2).send.closed = true ∧
      ∀ m', (m.start [Action.writerReady 1, Action.writerReady 3,
          Action.hub (Event.broadcast hiFromA), Action.hub (Event.unregister 2),
          Action.writerReady 1, Action.writerReady 3,
          Action.hub (Event.register 4)]).state? = some m' →
        2 ∉ m'.clients ∧ (m'.heap 2).send.closed = true ∧
        (m'.heap 2).send.outbox = (m.heap 2).send.outbox :=
  ⟨_, rfl, by decide, rfl,
    closed_connection_stays_out _ _ 2 (by decide) rfl (by decide)⟩

/-- C10: output of the outbound pump. For every list of payloads accepted by
an open channel, `close` on the channel succeeds, and on the closed channel
the pump writes the text frame of each payload in order, then one close frame,
and returns: the close frame is the only one and it is the last frame. -/
theorem write_after_close (id : String) (payloads : List Payload) (ready : Bool) :
    ∃ ch, Chan.close { outbox := payloads, closed := false, ready := ready } = Except.ok ch ∧
      ch.outbox = payloads ∧
      (Client.write { id := id, send := ch }).frames =
        payloads.map Frame.text ++ [Frame.close] ∧
      (Client.write { id := id, send := ch }).returned = true ∧
      (Client.write { id := id, send := ch }).frames.count Frame.close = 1 ∧
      (Client.write { id := id, send := ch }).frames.getLast? = some Frame.close := by
  refine ⟨{ outbox := payloads, closed := true, ready := ready }, rfl, rfl, ?_⟩
  have h := Client.writeLoop_frames true payloads
  simp only [Client.write, h.1, h.2, if_true, List.count_append, count_close_text,
    List.getLast?_concat]
  simp

end GoChatWeb
